import Mathlib

/-!
Verification of the record reconciliation engine of `applytrack`
(`src/app/services/manage_process_results.py`).

Strings are modelled as `List Char` (`Str`); Python `datetime` values as
`PyDateTime` (year, month, day, seconds within the day, compared
lexicographically, exactly the information Python's comparison uses).
A result entry (`Dict[str, Any]`) is modelled as `Entry`, an output record as
`MergedRec`; a field that is `None` (or, for `received_datetime`, any value
that is not a `datetime` instance, per the `isinstance` check in
`sort_key_received_datetime`) is `none`.

Python's `sorted`/`list.sort` are guaranteed stable; they are modelled by a
stable insertion sort `stableSort`, which agrees with any stable sort.
The interactive `prompt_job_title` (console I/O) is modelled as a function
parameter `prompt : Option Str → Option Str`.

The module `app/constants/result_fields.py` is not among the repository's
files; the constants it provides (`DATE_FORMAT = "%d.%m.%Y"`, giving the
zero-padded day.month.year pattern visible in `tests/test_process_results.py`,
and `UNKNOWN_COMPANY_PREFIX`) are modelled from the spec where used.
-/

namespace ApplyTrack

/-- Text is modelled as a list of characters. -/
abbrev Str := List Char

/-- Whitespace as Python's `str.strip()` / `str.split()` treat ASCII text
(space, tab, newline, carriage return, vertical tab, form feed). -/
def pyIsSpace (c : Char) : Bool :=
  c = ' ' || c = '\t' || c = '\n' || c = '\r' || c = '\x0b' || c = '\x0c'

/-- Drop leading whitespace (the left half of Python's `str.strip()`). -/
def stripLeft (s : Str) : Str := s.dropWhile pyIsSpace

/-- Drop trailing whitespace (the right half of Python's `str.strip()`). -/
def stripRight : Str → Str
  | [] => []
  | c :: rest =>
    let r := stripRight rest
    if r = [] && pyIsSpace c then [] else c :: r

/-- Python's `str.strip()`: drop surrounding whitespace. -/
def pyStrip (s : Str) : Str := stripRight (stripLeft s)

/-- Embeds `clean_str` (manage_process_results.py lines 6-10): `None` stays
`None`; otherwise the text is stripped, and a result that strips to empty
becomes `None` (Python's `text or None`). -/
def clean_str : Option Str → Option Str
  | none => none
  | some v =>
    let text := pyStrip v
    if text = [] then none else some text

theorem stripRight_nil : stripRight [] = [] := rfl

theorem stripLeft_eq_of_head (s : Str)
    (h : ∀ c, s.head? = some c → pyIsSpace c = false) : stripLeft s = s := by
  cases s with
  | nil => rfl
  | cons c rest =>
    have hc := h c rfl
    simp [stripLeft, List.dropWhile_cons, hc]

theorem head_stripLeft (s : Str) (c : Char) (h : (stripLeft s).head? = some c) :
    pyIsSpace c = false := by
  induction s with
  | nil => simp [stripLeft] at h
  | cons a rest ih =>
    by_cases ha : pyIsSpace a
    · have : stripLeft (a :: rest) = stripLeft rest := by
        simp [stripLeft, List.dropWhile_cons, ha]
      rw [this] at h
      exact ih h
    · have : stripLeft (a :: rest) = a :: rest := by
        simp [stripLeft, List.dropWhile_cons, ha]
      rw [this] at h
      simp at h
      subst h
      simpa using ha

theorem head_stripRight (s : Str) (c : Char) (h : (stripRight s).head? = some c) :
    s.head? = some c := by
  cases s with
  | nil => simp [stripRight] at h
  | cons a rest =>
    simp only [stripRight] at h
    by_cases hc : stripRight rest = [] ∧ pyIsSpace a
    · rw [if_pos (by simp [hc.1, hc.2])] at h
      simp at h
    · rw [if_neg (by intro hh; simp at hh; exact hc ⟨hh.1, hh.2⟩)] at h
      simp at h ⊢
      exact h

theorem getLast_stripRight (s : Str) (c : Char)
    (h : (stripRight s).getLast? = some c) : pyIsSpace c = false := by
  induction s with
  | nil => simp [stripRight] at h
  | cons a rest ih =>
    simp only [stripRight] at h
    by_cases hr : stripRight rest = []
    · by_cases ha : pyIsSpace a
      · rw [if_pos (by simp [hr, ha])] at h
        simp at h
      · rw [if_neg (by simp [ha])] at h
        rw [hr] at h
        simp at h
        subst h
        simpa using ha
    · rw [if_neg (by simp [hr])] at h
      have hcons : (a :: stripRight rest).getLast? = (stripRight rest).getLast? := by
        cases hsr : stripRight rest with
        | nil => exact absurd hsr hr
        | cons b bs => simp [List.getLast?_cons]
      rw [hcons] at h
      exact ih h

theorem stripRight_idem (s : Str) : stripRight (stripRight s) = stripRight s := by
  induction s with
  | nil => rfl
  | cons a rest ih =>
    simp only [stripRight]
    by_cases hc : stripRight rest = [] ∧ pyIsSpace a
    · rw [if_pos (by simp [hc.1, hc.2])]
      rfl
    · rw [if_neg (by intro hh; simp at hh; exact hc ⟨hh.1, hh.2⟩)]
      simp only [stripRight, ih]
      rw [if_neg (by intro hh; simp at hh; exact hc ⟨hh.1, hh.2⟩)]

theorem pyStrip_idem (s : Str) : pyStrip (pyStrip s) = pyStrip s := by
  unfold pyStrip
  have h1 : stripLeft (stripRight (stripLeft s)) = stripRight (stripLeft s) := by
    apply stripLeft_eq_of_head
    intro c hc
    exact head_stripLeft s c (head_stripRight _ c hc)
  rw [h1, stripRight_idem]

/-- C9: `clean_str` is idempotent, keeps absent values absent, and never
returns the empty string: any returned text is non-empty with no leading or
trailing whitespace. -/
theorem c9_clean_normalization (x : Option Str) :
    clean_str (clean_str x) = clean_str x ∧
    clean_str none = none ∧
    ∀ s : Str, clean_str x = some s →
      s ≠ [] ∧ (∀ c, s.head? = some c → pyIsSpace c = false) ∧
      (∀ c, s.getLast? = some c → pyIsSpace c = false) := by
  refine ⟨?_, rfl, ?_⟩
  · cases x with
    | none => rfl
    | some v =>
      simp only [clean_str]
      by_cases h : pyStrip v = []
      · rw [if_pos h]
      · rw [if_neg h]
        simp only [clean_str]
        rw [pyStrip_idem]
        rw [if_neg h]
  · intro s hs
    cases x with
    | none => simp [clean_str] at hs
    | some v =>
      simp only [clean_str] at hs
      by_cases h : pyStrip v = []
      · rw [if_pos h] at hs
        exact absurd hs (by simp)
      · rw [if_neg h] at hs
        simp at hs
        subst hs
        refine ⟨h, ?_, ?_⟩
        · intro c hc
          exact head_stripLeft v c (head_stripRight _ c hc)
        · intro c hc
          exact getLast_stripRight _ c hc

/-- Python `datetime`: calendar date plus seconds within the day (`tod`
covers hour, minute, second and microsecond). Comparison is lexicographic on
(year, month, day, tod), exactly the order Python uses on `datetime`. -/
structure PyDateTime where
  year : Nat
  month : Nat
  day : Nat
  tod : Nat
deriving DecidableEq, Repr, Inhabited

/-- Python's `datetime.min` (year 1, January 1, midnight), used by the code
as the sentinel for a missing or non-datetime `received_datetime`. -/
def dtMin : PyDateTime := ⟨1, 1, 1, 0⟩

/-- Python's `<=` on `datetime` values: lexicographic comparison. -/
def dtLe (a b : PyDateTime) : Bool :=
  decide (a.year < b.year ∨ (a.year = b.year ∧ (a.month < b.month ∨ (a.month = b.month ∧
    (a.day < b.day ∨ (a.day = b.day ∧ a.tod ≤ b.tod))))))

theorem dtLe_refl (a : PyDateTime) : dtLe a a = true := by
  simp [dtLe]

theorem dtLe_total (a b : PyDateTime) : dtLe a b = true ∨ dtLe b a = true := by
  simp only [dtLe, decide_eq_true_eq]
  omega

theorem dtLe_trans (a b c : PyDateTime) (h1 : dtLe a b = true) (h2 : dtLe b c = true) :
    dtLe a c = true := by
  simp only [dtLe, decide_eq_true_eq] at *
  omega

theorem dtLe_antisymm (a b : PyDateTime) (h1 : dtLe a b = true) (h2 : dtLe b a = true) :
    a = b := by
  cases a
  cases b
  simp only [dtLe, decide_eq_true_eq] at h1 h2
  simp only [PyDateTime.mk.injEq]
  omega

/-- A stable insertion step: the new element goes before the first element it
`le`-relates to, hence before no element it ties with that was already there. -/
def insertSorted {α : Type} (le : α → α → Bool) (a : α) : List α → List α
  | [] => [a]
  | b :: bs => if le a b then a :: b :: bs else b :: insertSorted le a bs

/-- Stable sort, modelling Python's guaranteed-stable `sorted`/`list.sort`:
elements are inserted right-to-left, so an element inserted later (appearing
earlier in the input) lands before the elements it ties with. -/
def stableSort {α : Type} (le : α → α → Bool) (l : List α) : List α :=
  l.foldr (insertSorted le) []

theorem insertSorted_perm {α : Type} (le : α → α → Bool) (a : α) (l : List α) :
    (insertSorted le a l).Perm (a :: l) := by
  induction l with
  | nil => simp [insertSorted]
  | cons b bs ih =>
    simp only [insertSorted]
    by_cases h : le a b = true
    · rw [if_pos h]
    · rw [if_neg h]
      exact (ih.cons b).trans (List.Perm.swap a b bs)

theorem stableSort_perm {α : Type} (le : α → α → Bool) (l : List α) :
    (stableSort le l).Perm l := by
  induction l with
  | nil => simp [stableSort]
  | cons a as ih =>
    have h1 := insertSorted_perm le a (stableSort le as)
    exact h1.trans (ih.cons a)

theorem mem_stableSort {α : Type} (le : α → α → Bool) (l : List α) (x : α) :
    x ∈ stableSort le l ↔ x ∈ l :=
  (stableSort_perm le l).mem_iff

theorem stableSort_ne_nil {α : Type} (le : α → α → Bool) (l : List α) (h : l ≠ []) :
    stableSort le l ≠ [] := by
  intro hc
  apply h
  have := (stableSort_perm le l).length_eq
  rw [hc] at this
  exact List.length_eq_zero.mp this.symm

theorem insertSorted_pairwise {α : Type} (le : α → α → Bool)
    (htot : ∀ a b, le a b = true ∨ le b a = true)
    (htrans : ∀ a b c, le a b = true → le b c = true → le a c = true)
    (a : α) (l : List α)
    (hl : l.Pairwise (fun x y => le x y = true)) :
    (insertSorted le a l).Pairwise (fun x y => le x y = true) := by
  induction l with
  | nil => simp [insertSorted]
  | cons b bs ih =>
    rw [List.pairwise_cons] at hl
    obtain ⟨hb, hbs⟩ := hl
    simp only [insertSorted]
    by_cases h : le a b = true
    · rw [if_pos h]
      refine List.Pairwise.cons ?_ (List.Pairwise.cons hb hbs)
      intro y hy
      rcases List.mem_cons.mp hy with hyb | hybs
      · exact hyb ▸ h
      · exact htrans a b y h (hb y hybs)
    · rw [if_neg h]
      refine List.Pairwise.cons ?_ (ih hbs)
      intro y hy
      have hy' : y ∈ a :: bs := (insertSorted_perm le a bs).mem_iff.mp hy
      rcases List.mem_cons.mp hy' with hya | hybs
      · rcases htot a b with hab | hba
        · exact absurd hab h
        · exact hya ▸ hba
      · exact hb y hybs

theorem stableSort_pairwise {α : Type} (le : α → α → Bool)
    (htot : ∀ a b, le a b = true ∨ le b a = true)
    (htrans : ∀ a b c, le a b = true → le b c = true → le a c = true)
    (l : List α) :
    (stableSort le l).Pairwise (fun x y => le x y = true) := by
  induction l with
  | nil => simp [stableSort]
  | cons a as ih => exact insertSorted_pairwise le htot htrans a (stableSort le as) ih

theorem stableSort_head_argmax {α : Type} (le : α → α → Bool)
    (htot : ∀ a b, le a b = true ∨ le b a = true)
    (htrans : ∀ a b c, le a b = true → le b c = true → le a c = true) :
    ∀ l : List α, l ≠ [] →
      ∃ i : Fin l.length, (stableSort le l).head? = some (l.get i) ∧
        (∀ e ∈ l, le (l.get i) e = true) ∧
        ∀ j : Fin l.length, (j : Nat) < (i : Nat) → le (l.get j) (l.get i) = false := by
  intro l
  induction l with
  | nil => intro h; exact absurd rfl h
  | cons x xs ih =>
    intro _
    by_cases hxs : xs = []
    · subst hxs
      refine ⟨⟨0, Nat.succ_pos 0⟩, rfl, ?_, ?_⟩
      · intro e he
        rcases List.mem_singleton.mp he with rfl
        exact (htot e e).elim id id
      · intro j hj
        exact absurd hj (by simp)
    · obtain ⟨i', hhead, hmax, hfirst⟩ := ih hxs
      obtain ⟨h, t, hht⟩ : ∃ h t, stableSort le xs = h :: t := by
        cases hsx : stableSort le xs with
        | nil => exact absurd hsx (stableSort_ne_nil le xs hxs)
        | cons h t => exact ⟨h, t, rfl⟩
      have hh : h = xs.get i' := by
        rw [hht] at hhead
        simp at hhead
        rw [List.get_eq_getElem]
        exact hhead
      have hs : stableSort le (x :: xs) = insertSorted le x (h :: t) := by
        show insertSorted le x (stableSort le xs) = _
        rw [hht]
      by_cases hxh : le x h = true
      · refine ⟨⟨0, Nat.succ_pos xs.length⟩, ?_, ?_, ?_⟩
        · rw [hs]
          simp [insertSorted, hxh]
        · intro e he
          rcases List.mem_cons.mp he with rfl | hexs
          · exact (htot e e).elim id id
          · exact htrans x h e hxh (hh ▸ hmax e hexs)
        · intro j hj
          exact absurd hj (by simp)
      · refine ⟨⟨i'.val + 1, Nat.succ_lt_succ i'.isLt⟩, ?_, ?_, ?_⟩
        · rw [hs]
          simp only [insertSorted, if_neg hxh]
          show some h = _
          rw [hh]
          rfl
        · intro e he
          rcases List.mem_cons.mp he with rfl | hexs
          · show le (xs.get i') e = true
            rw [← hh]
            exact (htot e h).elim (fun hc => absurd hc hxh) id
          · exact hmax e hexs
        · intro j hj
          rcases j with ⟨jv, hjlt⟩
          cases jv with
          | zero =>
            show le x (xs.get i') = false
            rw [← hh]
            exact Bool.eq_false_iff.mpr hxh
          | succ k =>
            have hk : k < xs.length := by
              simp [List.length_cons] at hjlt
              omega
            have hki : k < (i' : Nat) := by
              simp at hj
              omega
            exact hfirst ⟨k, hk⟩ hki

/-- One result entry (`Dict[str, Any]`) as produced by the extraction step.
For `received_datetime`, `none` models both an absent value and any value
that is not a `datetime` instance: the code treats these identically through
the `isinstance` check (`sort_key_received_datetime`, lines 30-34, and the
normalization loop, lines 96-99). -/
structure Entry where
  employer_name : Option Str
  contact_person : Option Str
  applied_position : Option Str
  postal_address : Option Str
  result : Option Str
  received_datetime : Option PyDateTime
deriving DecidableEq, Repr, Inhabited

/-- One merged output record, as built in the group loop of
`dedupe_and_merge_results` (lines 115-146). -/
structure MergedRec where
  employer_name : Option Str
  result : Option Str
  contact_person : Option Str
  applied_position : Option Str
  postal_address : Option Str
  first_contact_date : Option Str
deriving DecidableEq, Repr, Inhabited

/-- Decimal digit as a character, for Python's `str(entry_id)`. -/
def digitChar : Nat → Char
  | 0 => '0'
  | 1 => '1'
  | 2 => '2'
  | 3 => '3'
  | 4 => '4'
  | 5 => '5'
  | 6 => '6'
  | 7 => '7'
  | 8 => '8'
  | 9 => '9'
  | _ => '*'

/-- Python's `str(n)` for a natural number: decimal, no leading zeros. -/
def natStr (n : Nat) : Str :=
  if n = 0 then ['0'] else ((Nat.digits 10 n).map digitChar).reverse

/-- Python's `str.lower()` on the ASCII range (the engine's keys are compared
after lower-casing; non-ASCII letters are left unchanged in this model). -/
def pyToLower (c : Char) : Char :=
  match c with
  | 'A' => 'a' | 'B' => 'b' | 'C' => 'c' | 'D' => 'd' | 'E' => 'e' | 'F' => 'f'
  | 'G' => 'g' | 'H' => 'h' | 'I' => 'i' | 'J' => 'j' | 'K' => 'k' | 'L' => 'l'
  | 'M' => 'm' | 'N' => 'n' | 'O' => 'o' | 'P' => 'p' | 'Q' => 'q' | 'R' => 'r'
  | 'S' => 's' | 'T' => 't' | 'U' => 'u' | 'V' => 'v' | 'W' => 'w' | 'X' => 'x'
  | 'Y' => 'y' | 'Z' => 'z' | other => other

def pyLower (s : Str) : Str := s.map pyToLower

/-- Helper for Python's no-argument `str.split()`: `cur` accumulates the
current word reversed. -/
def pySplitAux : Str → Str → List Str
  | [], cur => if cur = [] then [] else [cur.reverse]
  | c :: rest, cur =>
    if pyIsSpace c then
      if cur = [] then pySplitAux rest [] else cur.reverse :: pySplitAux rest []
    else pySplitAux rest (c :: cur)

/-- Python's `str.split()` with no arguments: maximal runs of non-whitespace. -/
def pySplit (s : Str) : List Str := pySplitAux s []

/-- Python's `" ".join(parts)`. -/
def joinSpace : List Str → Str
  | [] => []
  | [p] => p
  | p :: q :: rest => p ++ ' ' :: joinSpace (q :: rest)

/-- Modelled from the spec: the constants module
`app/constants/result_fields.py` is not among the repository's files. The
spec requires the synthetic group key to be "a prefix plus the observation's
position in the input sequence", "guaranteed distinct per observation" and
never colliding "with any group key derived from a real employer name"; an
upper-case prefix satisfies this, since real keys are lower-cased. -/
def UNKNOWN_COMPANY_PREFIX : Str :=
  ['U', 'N', 'K', 'N', 'O', 'W', 'N', '_', 'C', 'O', 'M', 'P', 'A', 'N', 'Y', '_']

/-- Embeds `company_key` (lines 13-19): normalized employer name for
grouping, falling back to a stable synthetic key for the given entry id. -/
def company_key (value : Option Str) (entry_id : Nat) : Str :=
  match clean_str value with
  | none => UNKNOWN_COMPANY_PREFIX ++ natStr entry_id
  | some text => pyLower (joinSpace (pySplit text))

/-- Embeds `role_key` (lines 22-27). -/
def role_key (value : Option Str) : Option Str :=
  match clean_str value with
  | none => none
  | some text => some (pyLower (joinSpace (pySplit text)))

/-- Embeds `sort_key_received_datetime` (lines 30-34): a non-datetime value
(modelled by `none`) is replaced by `datetime.min`. -/
def sort_key_received_datetime (entry : Entry) : PyDateTime :=
  match entry.received_datetime with
  | some dt => dt
  | none => dtMin

/-- Embeds `first_non_null` (lines 37-42): the first entry whose cleaned
field value is present, scanning front to back. -/
def first_non_null : List Entry → (Entry → Option Str) → Option Str
  | [], _ => none
  | entry :: rest, field =>
    match clean_str (field entry) with
    | some value => some value
    | none => first_non_null rest field

/-- A grouping key: normalized company plus optional normalized role. -/
abbrev GKey := Str × Option Str

/-- Embeds `group_key` (lines 54-60). -/
def group_key (entry : Entry) (include_role : Bool) (entry_id : Nat) : GKey :=
  let company := company_key entry.employer_name entry_id
  let role := role_key entry.applied_position
  if include_role then (company, role) else (company, none)

/-- The scan inside `earliest_valid_received_datetime`: first effective
timestamp different from the sentinel. -/
def firstValidDt : List Entry → Option PyDateTime
  | [] => none
  | entry :: rest =>
    let dt := sort_key_received_datetime entry
    if dt = dtMin then firstValidDt rest else some dt

/-- Embeds `earliest_valid_received_datetime` (lines 63-69): iterate the
group newest-first list in reverse, returning the first timestamp that is
not `datetime.min`. -/
def earliest_valid_received_datetime (entries_sorted_newest_first : List Entry) :
    Option PyDateTime :=
  firstValidDt entries_sorted_newest_first.reverse

/-- Zero-padded two-digit field of `strftime` (`%d`, `%m`). -/
def pad2 (n : Nat) : Str := if n < 10 then '0' :: natStr n else natStr n

/-- Zero-padded four-digit year of `strftime` (`%Y`). -/
def pad4 (n : Nat) : Str :=
  if n < 10 then '0' :: '0' :: '0' :: natStr n
  else if n < 100 then '0' :: '0' :: natStr n
  else if n < 1000 then '0' :: natStr n
  else natStr n

/-- Modelled from the spec: `R.DATE_FORMAT` comes from the absent constants
module; the spec fixes it as "day.month.year, zero-padded", i.e. Python's
`"%d.%m.%Y"` (the repository's tests expect e.g. `"06.01.2026"`). This is
`dt.strftime(R.DATE_FORMAT)`. -/
def formatDate (dt : PyDateTime) : Str :=
  pad2 dt.day ++ '.' :: pad2 dt.month ++ '.' :: pad4 dt.year

/-- Split on the literal dots of the `"%d.%m.%Y"` pattern, keeping empty
pieces (so a malformed count of dots yields the wrong number of pieces). -/
def splitOnDot : Str → List Str
  | [] => [[]]
  | c :: rest =>
    match splitOnDot rest with
    | [] => [[c]]
    | p :: ps => if c = '.' then [] :: p :: ps else (c :: p) :: ps

/-- Value of a string of decimal digits. -/
def digitsToNat (s : Str) : Nat := s.foldl (fun acc c => acc * 10 + (c.toNat - 48)) 0

def allDigits (s : Str) : Bool := s.all (fun c => '0' ≤ c && c ≤ '9')

def isLeapYear (y : Nat) : Bool := y % 4 = 0 && (!(y % 100 = 0) || y % 400 = 0)

def daysInMonth (y m : Nat) : Nat :=
  if m = 2 then (if isLeapYear y then 29 else 28)
  else if m = 4 || m = 6 || m = 9 || m = 11 then 30 else 31

/-- Python's `datetime.strptime(value, "%d.%m.%Y")`, as an `Option`: the
`%d` and `%m` directives match one or two digits whose value is in range,
`%Y` exactly four digits; the `datetime` constructor then validates the
calendar date (day within the month, year at least 1). A `ValueError`
becomes `none`. -/
def parseDate (s : Str) : Option PyDateTime :=
  match splitOnDot s with
  | [d, m, y] =>
    if allDigits d = true ∧ (d.length = 1 ∨ d.length = 2) ∧
        1 ≤ digitsToNat d ∧ digitsToNat d ≤ 31 ∧
        allDigits m = true ∧ (m.length = 1 ∨ m.length = 2) ∧
        1 ≤ digitsToNat m ∧ digitsToNat m ≤ 12 ∧
        allDigits y = true ∧ y.length = 4 ∧ 1 ≤ digitsToNat y ∧
        digitsToNat d ≤ daysInMonth (digitsToNat y) (digitsToNat m)
    then some ⟨digitsToNat y, digitsToNat m, digitsToNat d, 0⟩
    else none
  | _ => none

/-- Embeds the nested `sort_key` of `dedupe_and_merge_results` (lines
148-154): `(0, parsed date)` for a cleanly parsing `first_contact_date`,
`(1, datetime.min)` for an absent or malformed one (the `except ValueError:
pass` path). -/
def sort_key (entry : MergedRec) : Nat × PyDateTime :=
  match clean_str entry.first_contact_date with
  | some value =>
    match parseDate value with
    | some dt => (0, dt)
    | none => (1, dtMin)
  | none => (1, dtMin)

/-- Python's tuple comparison on the keys of `sort_key`, as used by
`merged.sort(key=sort_key)`. -/
def recLe (a b : MergedRec) : Bool :=
  decide ((sort_key a).1 < (sort_key b).1 ∨
    ((sort_key a).1 = (sort_key b).1 ∧ dtLe (sort_key a).2 (sort_key b).2 = true))

/-- The comparison of `sorted(entries, key=sort_key_received_datetime,
reverse=True)`: `a` may come before `b` when its effective timestamp is at
least `b`'s (stability keeps ties in input order). -/
def descLe (a b : Entry) : Bool :=
  dtLe (sort_key_received_datetime b) (sort_key_received_datetime a)

/-- Embeds the per-group merge (lines 109-146 of
`dedupe_and_merge_results`). The interactive `prompt_job_title` (lines
45-51, console I/O) is modelled by the `prompt` parameter. -/
def mergeGroup (prompt : Option Str → Option Str) (entries : List Entry) : MergedRec :=
  let newest_first := stableSort descLe entries
  let oldest_first := newest_first.reverse
  let latest := newest_first.headD default
  let earliest_dt := earliest_valid_received_datetime newest_first
  let employer_name :=
    match first_non_null oldest_first (fun e => e.employer_name) with
    | some v => some v
    | none => clean_str latest.employer_name
  let contact_person :=
    match first_non_null oldest_first (fun e => e.contact_person) with
    | some v => some v
    | none => clean_str latest.contact_person
  let job0 :=
    match first_non_null oldest_first (fun e => e.applied_position) with
    | some v => some v
    | none => clean_str latest.applied_position
  let job_title :=
    match job0 with
    | some v => some v
    | none => prompt (clean_str employer_name)
  let address :=
    match first_non_null oldest_first (fun e => e.postal_address) with
    | some v => some v
    | none => clean_str latest.postal_address
  { employer_name := employer_name
    result := latest.result
    contact_person := contact_person
    applied_position := job_title
    postal_address := address
    first_contact_date := earliest_dt.map formatDate }

/-- Python's `groups.setdefault(key, []).append(result)` over an
insertion-ordered dict, modelled as an association list. -/
def addToGroups : List (GKey × List Entry) → GKey → Entry → List (GKey × List Entry)
  | [], key, entry => [(key, [entry])]
  | (k, es) :: rest, key, entry =>
    if k = key then (k, es ++ [entry]) :: rest
    else (k, es) :: addToGroups rest key entry

/-- The grouping loop (lines 101-104): `entry_id` is the position given by
`enumerate(results)`. -/
def groupLoop (include_role : Bool) : List Entry → Nat → List (GKey × List Entry) →
    List (GKey × List Entry)
  | [], _, groups => groups
  | entry :: rest, entry_id, groups =>
    groupLoop include_role rest (entry_id + 1)
      (addToGroups groups (group_key entry include_role entry_id) entry)

/-- The in-place write of lines 96-99, on one entry: a `received_datetime`
that is not a datetime instance is overwritten with `datetime.min`. -/
def coerce_received (e : Entry) : Entry :=
  match e.received_datetime with
  | some _ => e
  | none => { e with received_datetime := some dtMin }

/-- The mutation loop of lines 96-99 over the whole input list. -/
def normalize_received : List Entry → List Entry
  | [] => []
  | e :: rest => coerce_received e :: normalize_received rest

/-- The final `merged.sort(key=sort_key)` (line 156). -/
def sortRecords (l : List MergedRec) : List MergedRec := stableSort recLe l

/-- Embeds `dedupe_and_merge_results` (lines 72-157). The function mutates
its input list in place (lines 96-99) and returns the merged records; both
facets are returned here: the first component is the state of the caller's
list after the call, the second the return value. -/
def dedupe_and_merge_results (prompt : Option Str → Option Str)
    (results : List Entry) (include_role_in_key : Bool) :
    List Entry × List MergedRec :=
  if results = [] then (results, [])
  else
    let results1 := normalize_received results
    let groups := groupLoop include_role_in_key results1 0 []
    let merged := groups.map (fun g => mergeGroup prompt g.2)
    (results1, sortRecords merged)

theorem descLe_total (a b : Entry) : descLe a b = true ∨ descLe b a = true :=
  dtLe_total (sort_key_received_datetime b) (sort_key_received_datetime a)

theorem descLe_trans (a b c : Entry) (h1 : descLe a b = true) (h2 : descLe b c = true) :
    descLe a c = true :=
  dtLe_trans _ _ _ h2 h1

theorem recLe_total (a b : MergedRec) : recLe a b = true ∨ recLe b a = true := by
  simp only [recLe, decide_eq_true_eq]
  rcases Nat.lt_trichotomy (sort_key a).1 (sort_key b).1 with h | h | h
  · exact Or.inl (Or.inl h)
  · rcases dtLe_total (sort_key a).2 (sort_key b).2 with hd | hd
    · exact Or.inl (Or.inr ⟨h, hd⟩)
    · exact Or.inr (Or.inr ⟨h.symm, hd⟩)
  · exact Or.inr (Or.inl h)

theorem recLe_trans (a b c : MergedRec) (h1 : recLe a b = true) (h2 : recLe b c = true) :
    recLe a c = true := by
  simp only [recLe, decide_eq_true_eq] at *
  rcases h1 with h1 | ⟨h1e, h1d⟩
  · rcases h2 with h2 | ⟨h2e, _⟩
    · exact Or.inl (h1.trans h2)
    · exact Or.inl (h2e ▸ h1)
  · rcases h2 with h2 | ⟨h2e, h2d⟩
    · exact Or.inl (h1e ▸ h2)
    · exact Or.inr ⟨h1e.trans h2e, dtLe_trans _ _ _ h1d h2d⟩

theorem headD_of_head {α : Type} (l : List α) (x d : α) (h : l.head? = some x) :
    l.headD d = x := by
  cases l with
  | nil => simp at h
  | cons a as => simp at h ⊢; exact h

theorem first_non_null_eq_none (l : List Entry) (f : Entry → Option Str)
    (h : first_non_null l f = none) : ∀ e ∈ l, clean_str (f e) = none := by
  induction l with
  | nil => intro e he; simp at he
  | cons a rest ih =>
    intro e he
    simp only [first_non_null] at h
    rcases hc : clean_str (f a) with _ | v
    · rw [hc] at h
      rcases List.mem_cons.mp he with rfl | hr
      · exact hc
      · exact ih h e hr
    · rw [hc] at h
      simp at h

theorem normalize_received_eq_map (l : List Entry) :
    normalize_received l = l.map coerce_received := by
  induction l with
  | nil => rfl
  | cons e rest ih => simp [normalize_received, ih]

theorem mergeGroup_result_def (p : Option Str → Option Str) (entries : List Entry) :
    (mergeGroup p entries).result = ((stableSort descLe entries).headD default).result := rfl

theorem mergeGroup_fcd_def (p : Option Str → Option Str) (entries : List Entry) :
    (mergeGroup p entries).first_contact_date =
      (earliest_valid_received_datetime (stableSort descLe entries)).map formatDate := rfl

theorem mergeGroup_employer_def (p : Option Str → Option Str) (entries : List Entry) :
    (mergeGroup p entries).employer_name =
      (match first_non_null (stableSort descLe entries).reverse (fun e => e.employer_name) with
        | some v => some v
        | none => clean_str ((stableSort descLe entries).headD default).employer_name) := rfl

theorem mergeGroup_contact_def (p : Option Str → Option Str) (entries : List Entry) :
    (mergeGroup p entries).contact_person =
      (match first_non_null (stableSort descLe entries).reverse (fun e => e.contact_person) with
        | some v => some v
        | none => clean_str ((stableSort descLe entries).headD default).contact_person) := rfl

theorem mergeGroup_address_def (p : Option Str → Option Str) (entries : List Entry) :
    (mergeGroup p entries).postal_address =
      (match first_non_null (stableSort descLe entries).reverse (fun e => e.postal_address) with
        | some v => some v
        | none => clean_str ((stableSort descLe entries).headD default).postal_address) := rfl

theorem mergeGroup_position_def (p : Option Str → Option Str) (entries : List Entry) :
    (mergeGroup p entries).applied_position =
      (match
        (match first_non_null (stableSort descLe entries).reverse (fun e => e.applied_position) with
          | some v => some v
          | none => clean_str ((stableSort descLe entries).headD default).applied_position) with
        | some v => some v
        | none =>
          p (clean_str
            (match first_non_null (stableSort descLe entries).reverse (fun e => e.employer_name) with
              | some v => some v
              | none => clean_str ((stableSort descLe entries).headD default).employer_name))) := rfl

/-- Concrete observations mirroring the repository's test data: an early
entry (timestamp 2026-01-06, result "Zwischenstand", position "Backend
Developer") and a late entry (timestamp 2026-01-10, result "Absage", no
position). -/
def wEarly : Entry :=
  ⟨some ['A', 'B', 'C', ' ', 'G', 'm', 'b', 'H'], none,
   some ['B', 'a', 'c', 'k', 'e', 'n', 'd'], none,
   some ['Z', 'w', 'i', 's', 'c', 'h', 'e', 'n', 's', 't', 'a', 'n', 'd'],
   some ⟨2026, 1, 6, 32400⟩⟩

def wLate : Entry :=
  ⟨some ['A', 'B', 'C', ' ', 'G', 'm', 'b', 'H'], none, none, none,
   some ['A', 'b', 's', 'a', 'g', 'e'], some ⟨2026, 1, 10, 43200⟩⟩

/-- C3: for a non-empty group, the merged `result` equals the result of the
newest observation — the entry at an index `i` whose effective timestamp is
maximal and that is the first such index in input order (every strictly
earlier index has a strictly smaller effective timestamp) — taken verbatim
without cleaning or fallback. -/
theorem c3_result_newest_wins (p : Option Str → Option Str) (entries : List Entry)
    (h : entries ≠ []) :
    ∃ i : Fin entries.length,
      (mergeGroup p entries).result = (entries.get i).result ∧
      (∀ e ∈ entries, dtLe (sort_key_received_datetime e)
        (sort_key_received_datetime (entries.get i)) = true) ∧
      ∀ j : Fin entries.length, (j : Nat) < (i : Nat) →
        dtLe (sort_key_received_datetime (entries.get i))
          (sort_key_received_datetime (entries.get j)) = false := by
  obtain ⟨i, hhead, hmax, hfirst⟩ :=
    stableSort_head_argmax descLe descLe_total descLe_trans entries h
  refine ⟨i, ?_, ?_, ?_⟩
  · rw [mergeGroup_result_def, headD_of_head _ _ _ hhead]
  · intro e he
    exact hmax e he
  · intro j hj
    exact hfirst j hj

/-- Witness for C3 at the repository's own test scenario: results
"Zwischenstand" (old) and "Absage" (new) merge to the newest result. -/
theorem c3_result_newest_wins_witness :
    ∃ i : Fin ([wEarly, wLate] : List Entry).length,
      (mergeGroup (fun _ => none) [wEarly, wLate]).result = ([wEarly, wLate].get i).result ∧
      (∀ e ∈ ([wEarly, wLate] : List Entry), dtLe (sort_key_received_datetime e)
        (sort_key_received_datetime ([wEarly, wLate].get i)) = true) ∧
      ∀ j : Fin ([wEarly, wLate] : List Entry).length, (j : Nat) < (i : Nat) →
        dtLe (sort_key_received_datetime ([wEarly, wLate].get i))
          (sort_key_received_datetime ([wEarly, wLate].get j)) = false :=
  c3_result_newest_wins (fun _ => none) [wEarly, wLate] (List.cons_ne_nil _ _)

theorem firstValidDt_none_of_all_min (l : List Entry)
    (h : ∀ e ∈ l, sort_key_received_datetime e = dtMin) : firstValidDt l = none := by
  induction l with
  | nil => rfl
  | cons x rest ih =>
    simp only [firstValidDt]
    rw [if_pos (h x (List.mem_cons_self x rest))]
    exact ih (fun e he => h e (List.mem_cons_of_mem x he))

theorem firstValidDt_isSome (l : List Entry) (e0 : Entry) (he0 : e0 ∈ l)
    (h : sort_key_received_datetime e0 ≠ dtMin) : ∃ d, firstValidDt l = some d := by
  induction l with
  | nil => simp at he0
  | cons x rest ih =>
    simp only [firstValidDt]
    by_cases hx : sort_key_received_datetime x = dtMin
    · rw [if_pos hx]
      rcases List.mem_cons.mp he0 with rfl | hr
      · exact absurd hx h
      · exact ih hr
    · rw [if_neg hx]
      exact ⟨_, rfl⟩

theorem firstValidDt_min_of_sorted (l : List Entry)
    (hsort : l.Pairwise (fun a b =>
      dtLe (sort_key_received_datetime a) (sort_key_received_datetime b) = true))
    (d : PyDateTime) (h : firstValidDt l = some d) :
    d ≠ dtMin ∧ (∃ e ∈ l, sort_key_received_datetime e = d) ∧
      ∀ e ∈ l, sort_key_received_datetime e ≠ dtMin →
        dtLe d (sort_key_received_datetime e) = true := by
  induction l with
  | nil => simp [firstValidDt] at h
  | cons x rest ih =>
    rw [List.pairwise_cons] at hsort
    obtain ⟨hx, hrest⟩ := hsort
    simp only [firstValidDt] at h
    by_cases hxm : sort_key_received_datetime x = dtMin
    · rw [if_pos hxm] at h
      obtain ⟨hd, ⟨e, he, hed⟩, hmin⟩ := ih hrest h
      refine ⟨hd, ⟨e, List.mem_cons_of_mem x he, hed⟩, ?_⟩
      intro e' he' hne
      rcases List.mem_cons.mp he' with rfl | hr
      · exact absurd hxm hne
      · exact hmin e' hr hne
    · rw [if_neg hxm] at h
      have hd : d = sort_key_received_datetime x := by
        simpa using h.symm
      subst hd
      refine ⟨hxm, ⟨x, List.mem_cons_self x rest, rfl⟩, ?_⟩
      intro e' he' _
      rcases List.mem_cons.mp he' with rfl | hr
      · exact dtLe_refl _
      · exact hx e' hr

/-- C4: for every group, the merged `first_contact_date` is absent when
every member's effective timestamp is the sentinel, and otherwise equals
the minimum non-sentinel effective timestamp of the group, formatted with
the zero-padded day.month.year pattern — so it is always derived from a
real timestamp, never from the sentinel. -/
theorem c4_first_contact_earliest (p : Option Str → Option Str) (entries : List Entry) :
    ((∀ e ∈ entries, sort_key_received_datetime e = dtMin) →
      (mergeGroup p entries).first_contact_date = none) ∧
    ∀ e0 ∈ entries, sort_key_received_datetime e0 ≠ dtMin →
      ∃ d : PyDateTime, d ≠ dtMin ∧
        (∃ e ∈ entries, sort_key_received_datetime e = d) ∧
        (∀ e ∈ entries, sort_key_received_datetime e ≠ dtMin →
          dtLe d (sort_key_received_datetime e) = true) ∧
        (mergeGroup p entries).first_contact_date = some (formatDate d) := by
  have hmem : ∀ e : Entry, e ∈ (stableSort descLe entries).reverse ↔ e ∈ entries := by
    intro e
    rw [List.mem_reverse]
    exact mem_stableSort descLe entries e
  have hfcd : (mergeGroup p entries).first_contact_date =
      (firstValidDt (stableSort descLe entries).reverse).map formatDate :=
    mergeGroup_fcd_def p entries
  constructor
  · intro hall
    rw [hfcd, firstValidDt_none_of_all_min _ (fun e he => hall e ((hmem e).mp he))]
    rfl
  · intro e0 he0 hne
    obtain ⟨d, hd⟩ := firstValidDt_isSome _ e0 ((hmem e0).mpr he0) hne
    have hsorted : ((stableSort descLe entries).reverse).Pairwise (fun a b =>
        dtLe (sort_key_received_datetime a) (sort_key_received_datetime b) = true) := by
      rw [List.pairwise_reverse]
      exact stableSort_pairwise descLe descLe_total descLe_trans entries
    obtain ⟨hdm, ⟨e, he, hed⟩, hmin⟩ := firstValidDt_min_of_sorted _ hsorted d hd
    refine ⟨d, hdm, ⟨e, (hmem e).mp he, hed⟩, ?_, ?_⟩
    · intro e' he' hne'
      exact hmin e' ((hmem e').mpr he') hne'
    · rw [hfcd, hd]
      rfl

theorem coerce_received_min_eq (e : Entry) (h : e.received_datetime = some dtMin) :
    coerce_received e = coerce_received { e with received_datetime := none } := by
  cases e
  simp only at h
  subst h
  rfl

/-- C10: an observation whose `received_datetime` is `datetime.min` (or any
non-datetime value, which the embedding already identifies with an absent
one) is indistinguishable from an observation without a timestamp: its sort
key is the sentinel either way, the merged output of the whole pipeline is
unchanged by replacing one with the other, and a group consisting only of
sentinel timestamps merges to an absent `first_contact_date`. -/
theorem c10_min_timestamp_like_absent :
    (∀ e : Entry, e.received_datetime = some dtMin →
      sort_key_received_datetime e =
        sort_key_received_datetime { e with received_datetime := none }) ∧
    (∀ (p : Option Str → Option Str) (flag : Bool) (pre suf : List Entry) (e : Entry),
      e.received_datetime = some dtMin →
      (dedupe_and_merge_results p (pre ++ e :: suf) flag).2 =
        (dedupe_and_merge_results p
          (pre ++ { e with received_datetime := none } :: suf) flag).2) ∧
    (∀ (p : Option Str → Option Str) (entries : List Entry),
      (∀ e ∈ entries, sort_key_received_datetime e = dtMin) →
      (mergeGroup p entries).first_contact_date = none) := by
  refine ⟨?_, ?_, ?_⟩
  · intro e h
    simp [sort_key_received_datetime, h]
  · intro p flag pre suf e h
    have hne1 : ¬(pre ++ e :: suf = []) := by simp
    have hne2 : ¬(pre ++ { e with received_datetime := none } :: suf = []) := by simp
    have hnorm : normalize_received (pre ++ e :: suf) =
        normalize_received (pre ++ { e with received_datetime := none } :: suf) := by
      rw [normalize_received_eq_map, normalize_received_eq_map, List.map_append,
        List.map_append, List.map_cons, List.map_cons, coerce_received_min_eq e h]
    simp only [dedupe_and_merge_results, if_neg hne1, if_neg hne2]
    rw [hnorm]
  · intro p entries hall
    have hmem : ∀ e : Entry, e ∈ (stableSort descLe entries).reverse → e ∈ entries := by
      intro e he
      rw [List.mem_reverse] at he
      exact (mem_stableSort descLe entries e).mp he
    rw [mergeGroup_fcd_def p entries]
    show (firstValidDt (stableSort descLe entries).reverse).map formatDate = none
    rw [firstValidDt_none_of_all_min _ (fun e he => hall e (hmem e he))]
    rfl

theorem dedupe_fst (p : Option Str → Option Str) (results : List Entry) (flag : Bool) :
    (dedupe_and_merge_results p results flag).1 = normalize_received results := by
  by_cases h : results = []
  · subst h
    rfl
  · simp only [dedupe_and_merge_results, if_neg h]

theorem coerce_received_fields (e : Entry) :
    (coerce_received e).employer_name = e.employer_name ∧
    (coerce_received e).contact_person = e.contact_person ∧
    (coerce_received e).applied_position = e.applied_position ∧
    (coerce_received e).postal_address = e.postal_address ∧
    (coerce_received e).result = e.result ∧
    (coerce_received e).received_datetime = some (sort_key_received_datetime e) := by
  cases e with
  | mk a b c d r rd =>
    cases rd <;> simp [coerce_received, sort_key_received_datetime]

/-- An observation with no real timestamp, for exercising the in-place
sentinel write of lines 96-99. -/
def cMut : Entry := ⟨some ['A'], none, none, none, none, none⟩

/-- C1 counterexample: calling `dedupe_and_merge_results` on a list holding
one observation without a `received_datetime` leaves that input list
changed — the sentinel has been written back into the source observation,
so the call does mutate its input. -/
theorem c1_counterexample :
    (dedupe_and_merge_results (fun _ => none) [cMut] false).1 ≠ [cMut] := by
  decide

/-- C1 amended: the call preserves every field of every input observation
except `received_datetime`: an observation already carrying a timestamp
keeps it, but the call writes the sentinel (`datetime.min`) into
`received_datetime` of every observation lacking one — the sentinel IS
written back into the input list. -/
theorem c1_amended_input_mutation (p : Option Str → Option Str) (results : List Entry)
    (flag : Bool) (i : Nat) (hi : i < results.length) :
    (dedupe_and_merge_results p results flag).1.length = results.length ∧
    ∃ e' : Entry, (dedupe_and_merge_results p results flag).1.get? i = some e' ∧
      e'.employer_name = (results.get ⟨i, hi⟩).employer_name ∧
      e'.contact_person = (results.get ⟨i, hi⟩).contact_person ∧
      e'.applied_position = (results.get ⟨i, hi⟩).applied_position ∧
      e'.postal_address = (results.get ⟨i, hi⟩).postal_address ∧
      e'.result = (results.get ⟨i, hi⟩).result ∧
      e'.received_datetime = some (sort_key_received_datetime (results.get ⟨i, hi⟩)) := by
  rw [dedupe_fst, normalize_received_eq_map]
  constructor
  · exact List.length_map results coerce_received
  · refine ⟨coerce_received (results.get ⟨i, hi⟩), ?_, coerce_received_fields _⟩
    rw [List.get?_map, List.get?_eq_get hi]
    rfl

/-- Witness for the amended C1 at a concrete input: the single observation
`cMut` (no timestamp) is preserved except that its `received_datetime`
becomes the sentinel. -/
theorem c1_amended_input_mutation_witness :
    (dedupe_and_merge_results (fun _ => none) [cMut] false).1.length =
      ([cMut] : List Entry).length ∧
    ∃ e' : Entry,
      (dedupe_and_merge_results (fun _ => none) [cMut] false).1.get? 0 = some e' ∧
      e'.employer_name = (([cMut] : List Entry).get ⟨0, Nat.one_pos⟩).employer_name ∧
      e'.contact_person = (([cMut] : List Entry).get ⟨0, Nat.one_pos⟩).contact_person ∧
      e'.applied_position = (([cMut] : List Entry).get ⟨0, Nat.one_pos⟩).applied_position ∧
      e'.postal_address = (([cMut] : List Entry).get ⟨0, Nat.one_pos⟩).postal_address ∧
      e'.result = (([cMut] : List Entry).get ⟨0, Nat.one_pos⟩).result ∧
      e'.received_datetime =
        some (sort_key_received_datetime (([cMut] : List Entry).get ⟨0, Nat.one_pos⟩)) :=
  c1_amended_input_mutation (fun _ => none) [cMut] false 0 Nat.one_pos

/-- The parsed first-contact date of a record, if its stored string cleans
to a value that parses against the fixed date format. -/
def parsed_first_contact (r : MergedRec) : Option PyDateTime :=
  match clean_str r.first_contact_date with
  | some v => parseDate v
  | none => none

/-- A record counts as carrying a present and syntactically valid
`first_contact_date` exactly when `parsed_first_contact` succeeds. -/
def validDateRec (r : MergedRec) : Bool := (parsed_first_contact r).isSome

theorem sort_key_of_parsed (r : MergedRec) (dt : PyDateTime)
    (h : parsed_first_contact r = some dt) : sort_key r = (0, dt) := by
  unfold parsed_first_contact at h
  cases hc : clean_str r.first_contact_date with
  | none => rw [hc] at h; simp at h
  | some v =>
    rw [hc] at h
    have h' : parseDate v = some dt := h
    simp [sort_key, hc, h']

theorem sort_key_of_not_parsed (r : MergedRec) (h : parsed_first_contact r = none) :
    sort_key r = (1, dtMin) := by
  unfold parsed_first_contact at h
  cases hc : clean_str r.first_contact_date with
  | none => simp [sort_key, hc]
  | some v =>
    rw [hc] at h
    have h' : parseDate v = none := h
    simp [sort_key, hc, h']

/-- C6: a record whose stored `first_contact_date` cleans to a string that
fails to parse against the fixed date format gets exactly the sort key of a
record with an absent date, compares identically to it against every other
record, and the ordering step is a total function returning a permutation
of its input for every input — a malformed date never aborts the run. -/
theorem c6_malformed_date_like_absent (r : MergedRec) (s : Str)
    (h1 : clean_str r.first_contact_date = some s) (h2 : parseDate s = none) :
    sort_key r = (1, dtMin) ∧
    sort_key { r with first_contact_date := none } = (1, dtMin) ∧
    (∀ x : MergedRec, recLe r x = recLe { r with first_contact_date := none } x ∧
      recLe x r = recLe x { r with first_contact_date := none }) ∧
    ∀ l : List MergedRec, (sortRecords l).Perm l := by
  have hp : parsed_first_contact r = none := by
    unfold parsed_first_contact
    rw [h1]
    exact h2
  have hk1 : sort_key r = (1, dtMin) := sort_key_of_not_parsed r hp
  have hk2 : sort_key { r with first_contact_date := none } = (1, dtMin) := by
    apply sort_key_of_not_parsed
    unfold parsed_first_contact
    rfl
  have hkeq : sort_key r = sort_key { r with first_contact_date := none } :=
    hk1.trans hk2.symm
  refine ⟨hk1, hk2, ?_, ?_⟩
  · intro x
    constructor
    · unfold recLe
      rw [hkeq]
    · unfold recLe
      rw [hkeq]
  · intro l
    exact stableSort_perm recLe l

/-- A record whose stored date string is well-formed in shape but invalid as
a calendar value (day 99), for exercising the `ValueError` path. -/
def cBadDate : MergedRec :=
  ⟨none, none, none, none, none, some ['9', '9', '.', '9', '9', '.', '9', '9', '9', '9']⟩

/-- Witness for C6: the concrete malformed date "99.99.9999" is keyed like
an absent date. -/
theorem c6_malformed_date_like_absent_witness :
    sort_key cBadDate = (1, dtMin) ∧
    sort_key { cBadDate with first_contact_date := none } = (1, dtMin) ∧
    (∀ x : MergedRec, recLe cBadDate x = recLe { cBadDate with first_contact_date := none } x ∧
      recLe x cBadDate = recLe x { cBadDate with first_contact_date := none }) ∧
    ∀ l : List MergedRec, (sortRecords l).Perm l :=
  c6_malformed_date_like_absent cBadDate
    ['9', '9', '.', '9', '9', '.', '9', '9', '9', '9'] (by decide) (by decide)

theorem sort_key_of_invalid (r : MergedRec) (h : validDateRec r = false) :
    sort_key r = (1, dtMin) := by
  apply sort_key_of_not_parsed
  unfold validDateRec at h
  exact Option.not_isSome_iff_eq_none.mp (by simp [h])

theorem sort_key_of_valid (r : MergedRec) (h : validDateRec r = true) :
    ∃ dt, parsed_first_contact r = some dt ∧ sort_key r = (0, dt) := by
  unfold validDateRec at h
  obtain ⟨dt, hdt⟩ := Option.isSome_iff_exists.mp h
  exact ⟨dt, hdt, sort_key_of_parsed r dt hdt⟩

theorem recLe_invalid_invalid (a b : MergedRec) (ha : validDateRec a = false)
    (hb : validDateRec b = false) : recLe a b = true := by
  simp [recLe, sort_key_of_invalid a ha, sort_key_of_invalid b hb, dtLe_refl]

theorem recLe_invalid_valid (a b : MergedRec) (ha : validDateRec a = false)
    (hb : validDateRec b = true) : recLe a b = false := by
  obtain ⟨dt, _, hk⟩ := sort_key_of_valid b hb
  simp [recLe, sort_key_of_invalid a ha, hk]

theorem filter_insertSorted_recLe (a : MergedRec) (l : List MergedRec) :
    (insertSorted recLe a l).filter (fun r => !validDateRec r) =
      if validDateRec a = false then a :: l.filter (fun r => !validDateRec r)
      else l.filter (fun r => !validDateRec r) := by
  induction l with
  | nil =>
    by_cases ha : validDateRec a = false
    · rw [if_pos ha]
      simp [insertSorted, List.filter, ha]
    · rw [if_neg ha]
      have ha' : validDateRec a = true := by
        cases hv : validDateRec a
        · exact absurd hv ha
        · rfl
      simp [insertSorted, List.filter, ha']
  | cons b bs ih =>
    by_cases hab : recLe a b = true
    · simp only [insertSorted, if_pos hab]
      by_cases ha : validDateRec a = false
      · rw [if_pos ha]
        simp [List.filter_cons, ha]
      · rw [if_neg ha]
        have ha' : validDateRec a = true := by
          cases hv : validDateRec a
          · exact absurd hv ha
          · rfl
        simp [List.filter_cons, ha']
    · simp only [insertSorted, if_neg hab]
      by_cases ha : validDateRec a = false
      · have hb : validDateRec b = true := by
          cases hv : validDateRec b
          · exact absurd (recLe_invalid_invalid a b ha hv) hab
          · rfl
        rw [if_pos ha]
        rw [List.filter_cons, List.filter_cons]
        simp only [hb]
        rw [ih, if_pos ha]
        simp
      · rw [if_neg ha]
        rw [List.filter_cons, List.filter_cons]
        rw [ih, if_neg ha]

theorem filter_sortRecords (l : List MergedRec) :
    (sortRecords l).filter (fun r => !validDateRec r) =
      l.filter (fun r => !validDateRec r) := by
  unfold sortRecords
  induction l with
  | nil => rfl
  | cons x xs ih =>
    show ((insertSorted recLe x (stableSort recLe xs)).filter fun r => !validDateRec r) = _
    rw [filter_insertSorted_recLe, List.filter_cons]
    by_cases hx : validDateRec x = false
    · rw [if_pos hx]
      simp only [hx]
      rw [ih]
      simp
    · rw [if_neg hx]
      have hx' : validDateRec x = true := by
        cases hv : validDateRec x
        · exact absurd hv hx
        · rfl
      simp only [hx']
      rw [ih]
      simp

/-- C5: the final ordering is a stable sort of the merged records: the
output is a permutation of the input; every record with a present, parseable
`first_contact_date` comes before every record without one; among
valid-date records the parsed dates are ascending; and the records with an
absent or unparseable date appear in exactly their input order (the filtered
sublists coincide). -/
theorem c5_output_ordering (l : List MergedRec) :
    (sortRecords l).Perm l ∧
    (∀ i j : Fin (sortRecords l).length, (i : Nat) < (j : Nat) →
      validDateRec ((sortRecords l).get j) = true →
      validDateRec ((sortRecords l).get i) = true) ∧
    (∀ i j : Fin (sortRecords l).length, (i : Nat) < (j : Nat) →
      ∀ da db : PyDateTime,
        parsed_first_contact ((sortRecords l).get i) = some da →
        parsed_first_contact ((sortRecords l).get j) = some db →
        dtLe da db = true) ∧
    (sortRecords l).filter (fun r => !validDateRec r) =
      l.filter (fun r => !validDateRec r) := by
  have hpw : (sortRecords l).Pairwise (fun x y => recLe x y = true) :=
    stableSort_pairwise recLe recLe_total recLe_trans l
  have hget := List.pairwise_iff_get.mp hpw
  refine ⟨stableSort_perm recLe l, ?_, ?_, filter_sortRecords l⟩
  · intro i j hij hj
    have hle : recLe ((sortRecords l).get i) ((sortRecords l).get j) = true := hget i j hij
    cases hv : validDateRec ((sortRecords l).get i)
    · rw [recLe_invalid_valid _ _ hv hj] at hle
      exact absurd hle (by simp)
    · rfl
  · intro i j hij da db hda hdb
    have hle : recLe ((sortRecords l).get i) ((sortRecords l).get j) = true := hget i j hij
    have hki := sort_key_of_parsed _ da hda
    have hkj := sort_key_of_parsed _ db hdb
    simp only [recLe, hki, hkj, decide_eq_true_eq] at hle
    rcases hle with hlt | ⟨_, hd⟩
    · exact absurd hlt (by simp)
    · exact hd

theorem digitChar_inj (a b : Nat) (ha : a < 10) (hb : b < 10)
    (h : digitChar a = digitChar b) : a = b := by
  interval_cases a <;> interval_cases b <;> revert h <;> decide

theorem map_digitChar_inj : ∀ (l1 l2 : List Nat), (∀ d ∈ l1, d < 10) →
    (∀ d ∈ l2, d < 10) → l1.map digitChar = l2.map digitChar → l1 = l2
  | [], [], _, _, _ => rfl
  | [], _ :: _, _, _, h => by simp at h
  | _ :: _, [], _, _, h => by simp at h
  | a :: as, b :: bs, h1, h2, h => by
    simp only [List.map_cons, List.cons.injEq] at h
    have hab : a = b :=
      digitChar_inj a b (h1 a (List.mem_cons_self a as)) (h2 b (List.mem_cons_self b bs)) h.1
    have htail : as = bs :=
      map_digitChar_inj as bs (fun d hd => h1 d (List.mem_cons_of_mem a hd))
        (fun d hd => h2 d (List.mem_cons_of_mem b hd)) h.2
    rw [hab, htail]

theorem natStr_nonzero_ne_zero_str (n : Nat) (hn : n ≠ 0) : natStr n ≠ ['0'] := by
  intro h
  unfold natStr at h
  rw [if_neg hn] at h
  have h' : (Nat.digits 10 n).map digitChar = ['0'] := by
    have := congrArg List.reverse h
    rwa [List.reverse_reverse] at this
  cases hd : Nat.digits 10 n with
  | nil => rw [hd] at h'; simp at h'
  | cons d ds =>
    rw [hd] at h'
    simp only [List.map_cons, List.cons.injEq] at h'
    have hds : ds = [] := List.map_eq_nil.mp h'.2
    have hdlt : d < 10 := by
      apply Nat.digits_lt_base (by norm_num)
      rw [hd]
      exact List.mem_cons_self d ds
    have hd0 : d = 0 := digitChar_inj d 0 hdlt (by norm_num) (by simpa [digitChar] using h'.1)
    apply hn
    have hofd := Nat.ofDigits_digits 10 n
    rw [hd, hds, hd0] at hofd
    simpa [Nat.ofDigits] using hofd.symm

theorem natStr_inj (m n : Nat) (h : natStr m = natStr n) : m = n := by
  by_cases hm : m = 0 <;> by_cases hn : n = 0
  · rw [hm, hn]
  · subst hm
    have : natStr 0 = ['0'] := by simp [natStr]
    exact absurd (h.symm.trans this) (natStr_nonzero_ne_zero_str n hn)
  · subst hn
    have : natStr 0 = ['0'] := by simp [natStr]
    exact absurd (h.trans this) (natStr_nonzero_ne_zero_str m hm)
  · unfold natStr at h
    rw [if_neg hm, if_neg hn] at h
    have h' : (Nat.digits 10 m).map digitChar = (Nat.digits 10 n).map digitChar := by
      have := congrArg List.reverse h
      rwa [List.reverse_reverse, List.reverse_reverse] at this
    have hdig : Nat.digits 10 m = Nat.digits 10 n :=
      map_digitChar_inj _ _ (fun d hd => Nat.digits_lt_base (by norm_num) hd)
        (fun d hd => Nat.digits_lt_base (by norm_num) hd) h'
    have := congrArg (Nat.ofDigits 10) hdig
    rwa [Nat.ofDigits_digits, Nat.ofDigits_digits] at this

theorem pyToLower_ne_U (c : Char) : pyToLower c ≠ 'U' := by
  unfold pyToLower
  split <;> simp_all

theorem not_mem_pyLower_U (s : Str) : 'U' ∉ pyLower s := by
  intro h
  obtain ⟨c, _, hc⟩ := List.mem_map.mp h
  exact pyToLower_ne_U c hc

theorem group_key_fst (e : Entry) (flag : Bool) (i : Nat) :
    (group_key e flag i).1 = company_key e.employer_name i := by
  cases flag <;> rfl

/-- C7: two distinct observations both lacking a usable employer name get
different group keys (spec-modelled synthetic prefix plus distinct decimal
ids), and a synthetic key never equals a group key derived from a real
employer name (the synthetic prefix keeps an upper-case letter, which the
lower-cased normalization of a real name can never contain). -/
theorem c7_synthetic_keys_distinct (flag1 flag2 : Bool) (e1 e2 : Entry) (i j : Nat)
    (h1 : clean_str e1.employer_name = none) :
    (clean_str e2.employer_name = none → i ≠ j →
      group_key e1 flag1 i ≠ group_key e2 flag2 j) ∧
    ∀ t : Str, clean_str e2.employer_name = some t →
      group_key e1 flag1 i ≠ group_key e2 flag2 j := by
  constructor
  · intro h2 hij hk
    apply hij
    have hfst : (group_key e1 flag1 i).1 = (group_key e2 flag2 j).1 := congrArg Prod.fst hk
    rw [group_key_fst, group_key_fst] at hfst
    simp only [company_key, h1, h2] at hfst
    exact natStr_inj i j (List.append_cancel_left hfst)
  · intro t h2 hk
    have hfst : (group_key e1 flag1 i).1 = (group_key e2 flag2 j).1 := congrArg Prod.fst hk
    rw [group_key_fst, group_key_fst] at hfst
    simp only [company_key, h1, h2] at hfst
    have hU : 'U' ∈ UNKNOWN_COMPANY_PREFIX ++ natStr i :=
      List.mem_append_left _ (by decide)
    rw [hfst] at hU
    exact not_mem_pyLower_U _ hU

/-- Observations without a usable employer name, and one with a real name,
for the C7 witness. -/
def wNoName1 : Entry := ⟨none, none, none, none, some ['r'], none⟩

def wNoName2 : Entry := ⟨some [' ', ' '], none, none, none, none, none⟩

/-- Witness for C7 at concrete inputs: ids 0 and 1, one blank-name
observation against another. -/
theorem c7_synthetic_keys_distinct_witness :
    (clean_str wNoName2.employer_name = none → (0 : Nat) ≠ (1 : Nat) →
      group_key wNoName1 false 0 ≠ group_key wNoName2 true 1) ∧
    ∀ t : Str, clean_str wNoName2.employer_name = some t →
      group_key wNoName1 false 0 ≠ group_key wNoName2 true 1 :=
  c7_synthetic_keys_distinct false true wNoName1 wNoName2 0 1 (by decide)

theorem MergedRec_ext (a b : MergedRec)
    (h1 : a.employer_name = b.employer_name) (h2 : a.result = b.result)
    (h3 : a.contact_person = b.contact_person)
    (h4 : a.applied_position = b.applied_position)
    (h5 : a.postal_address = b.postal_address)
    (h6 : a.first_contact_date = b.first_contact_date) : a = b := by
  cases a
  cases b
  simp_all

theorem fallback_eq_fnn (l : List Entry) (f : Entry → Option Str) (x : Entry)
    (hx : x ∈ l) :
    (match first_non_null l f with
      | some v => some v
      | none => clean_str (f x)) = first_non_null l f := by
  cases hf : first_non_null l f with
  | some v => rfl
  | none => exact first_non_null_eq_none l f hf x hx

theorem latest_mem_oldest (entries : List Entry) (h : entries ≠ []) :
    (stableSort descLe entries).headD default ∈ (stableSort descLe entries).reverse := by
  rw [List.mem_reverse]
  cases hs : stableSort descLe entries with
  | nil => exact absurd hs (stableSort_ne_nil descLe entries h)
  | cons a as =>
    rw [List.headD_cons]
    exact List.mem_cons_self a as

/-- The simplified merge policy stated by the spec's design note: "an
implementer may simplify to first non-null oldest-to-newest, else absent
with identical observable behavior" — the `else take the newest value`
fallback of the source is dropped for the identity fields. Defined here
only to be compared with `mergeGroup`. -/
def mergeGroup_spec_simplified (prompt : Option Str → Option Str)
    (entries : List Entry) : MergedRec :=
  let newest_first := stableSort descLe entries
  let oldest_first := newest_first.reverse
  let latest := newest_first.headD default
  let earliest_dt := earliest_valid_received_datetime newest_first
  let employer_name := first_non_null oldest_first (fun e => e.employer_name)
  let contact_person := first_non_null oldest_first (fun e => e.contact_person)
  let job_title :=
    match first_non_null oldest_first (fun e => e.applied_position) with
    | some v => some v
    | none => prompt (clean_str employer_name)
  let address := first_non_null oldest_first (fun e => e.postal_address)
  { employer_name := employer_name
    result := latest.result
    contact_person := contact_person
    applied_position := job_title
    postal_address := address
    first_contact_date := earliest_dt.map formatDate }

/-- C8: for every non-empty group, the source's "first non-null oldest to
newest, else the newest observation's cleaned value" policy produces exactly
the same merged record as the simplified "first non-null oldest to newest,
else absent" policy: when the scan finds nothing, the newest observation's
cleaned value is absent too. -/
theorem c8_newest_fallback_redundant (p : Option Str → Option Str)
    (entries : List Entry) (h : entries ≠ []) :
    mergeGroup p entries = mergeGroup_spec_simplified p entries := by
  have hmem := latest_mem_oldest entries h
  have hemp := fallback_eq_fnn _ (fun e => e.employer_name) _ hmem
  have hcon := fallback_eq_fnn _ (fun e => e.contact_person) _ hmem
  have hpos := fallback_eq_fnn _ (fun e => e.applied_position) _ hmem
  have haddr := fallback_eq_fnn _ (fun e => e.postal_address) _ hmem
  apply MergedRec_ext
  · rw [mergeGroup_employer_def]
    exact hemp
  · rfl
  · rw [mergeGroup_contact_def]
    exact hcon
  · rw [mergeGroup_position_def]
    show _ = (match first_non_null (stableSort descLe entries).reverse
        (fun e => e.applied_position) with
      | some v => some v
      | none => p (clean_str (first_non_null (stableSort descLe entries).reverse
          (fun e => e.employer_name))))
    rw [hpos, hemp]
  · rw [mergeGroup_address_def]
    exact haddr
  · rfl

/-- Witness for C8 at the repository's test scenario. -/
theorem c8_newest_fallback_redundant_witness :
    mergeGroup (fun _ => none) [wEarly, wLate] =
      mergeGroup_spec_simplified (fun _ => none) [wEarly, wLate] :=
  c8_newest_fallback_redundant (fun _ => none) [wEarly, wLate] (List.cons_ne_nil _ _)

/-- The oldest-to-newest ordering as the claim words it: stable ascending by
effective timestamp with ties kept in input order. Defined only for
comparison with the code's scan order, which is the exact reverse of the
stable newest-first ordering. -/
def ascLe (a b : Entry) : Bool :=
  dtLe (sort_key_received_datetime a) (sort_key_received_datetime b)

def oldestFirstClaimOrder (entries : List Entry) : List Entry := stableSort ascLe entries

/-- Two observations of the same employer with equal timestamps and
different applied positions. -/
def cTieA : Entry :=
  ⟨some ['X'], none, some ['A'], none, some ['r', '1'], some ⟨2026, 1, 6, 0⟩⟩

def cTieB : Entry :=
  ⟨some ['X'], none, some ['B'], none, some ['r', '2'], some ⟨2026, 1, 6, 0⟩⟩

/-- C2 counterexample: with two same-employer observations tied on
timestamp, the claimed scan (ties in input order) yields the first
observation's position `A`, but the code merges to the second observation's
position `B` — the code scans ties in reversed input order. -/
theorem c2_counterexample :
    first_non_null (oldestFirstClaimOrder [cTieA, cTieB]) (fun e => e.applied_position) =
      some ['A'] ∧
    (mergeGroup (fun _ => none) [cTieA, cTieB]).applied_position = some ['B'] := by
  decide

/-- The identity fields of an observation paired with the corresponding
field of the merged record. -/
def identityFieldPairs : List ((Entry → Option Str) × (MergedRec → Option Str)) :=
  [(fun e => e.employer_name, fun r => r.employer_name),
   (fun e => e.contact_person, fun r => r.contact_person),
   (fun e => e.applied_position, fun r => r.applied_position),
   (fun e => e.postal_address, fun r => r.postal_address)]

theorem two_entry_oldest_wins (p : Option Str → Option Str)
    (fe : Entry → Option Str) (fm : MergedRec → Option Str)
    (hpart1 : ∀ (entries : List Entry) (v : Str),
      first_non_null (stableSort descLe entries).reverse fe = some v →
      fm (mergeGroup p entries) = some v)
    (e0 e1 : Entry) (v : Str)
    (hlt : dtLe (sort_key_received_datetime e1) (sort_key_received_datetime e0) = false)
    (h0 : clean_str (fe e0) = some v) :
    fm (mergeGroup p [e0, e1]) = some v ∧ fm (mergeGroup p [e1, e0]) = some v := by
  have hd01 : descLe e0 e1 = false := hlt
  have hd10 : descLe e1 e0 = true := by
    rcases descLe_total e1 e0 with hh | hh
    · exact hh
    · rw [hd01] at hh
      exact absurd hh (by simp)
  have hsort01 : stableSort descLe [e0, e1] = [e1, e0] := by
    show insertSorted descLe e0 (insertSorted descLe e1 []) = [e1, e0]
    simp [insertSorted, hd01]
  have hsort10 : stableSort descLe [e1, e0] = [e1, e0] := by
    show insertSorted descLe e1 (insertSorted descLe e0 []) = [e1, e0]
    simp [insertSorted, hd10]
  constructor
  · apply hpart1
    rw [hsort01]
    show first_non_null [e0, e1] fe = some v
    simp [first_non_null, h0]
  · apply hpart1
    rw [hsort10]
    show first_non_null [e0, e1] fe = some v
    simp [first_non_null, h0]

/-- C2 amended: for every group and identity field, the merged value is the
first non-absent cleaned value scanning the group oldest-to-newest by
effective timestamp, where the oldest-to-newest order is the exact reverse
of the stable newest-first order — so ties are scanned in reversed input
order, not input order; in particular, with one observation holding the
field at timestamp T1 and the other lacking it at T2 > T1, the merged field
equals the T1 observation's value regardless of input order. -/
theorem c2_amended_oldest_wins (p : Option Str → Option Str)
    (fe : Entry → Option Str) (fm : MergedRec → Option Str)
    (hf : (fe, fm) ∈ identityFieldPairs) :
    (∀ (entries : List Entry) (v : Str),
      first_non_null (stableSort descLe entries).reverse fe = some v →
      fm (mergeGroup p entries) = some v) ∧
    (∀ entries : List Entry, ((stableSort descLe entries).reverse.Pairwise (fun a b =>
      dtLe (sort_key_received_datetime a) (sort_key_received_datetime b) = true))) ∧
    (∀ (e0 e1 : Entry) (v : Str),
      dtLe (sort_key_received_datetime e1) (sort_key_received_datetime e0) = false →
      clean_str (fe e0) = some v → clean_str (fe e1) = none →
      fm (mergeGroup p [e0, e1]) = some v ∧ fm (mergeGroup p [e1, e0]) = some v) := by
  have hpart2 : ∀ entries : List Entry,
      ((stableSort descLe entries).reverse.Pairwise (fun a b =>
        dtLe (sort_key_received_datetime a) (sort_key_received_datetime b) = true)) := by
    intro entries
    rw [List.pairwise_reverse]
    exact stableSort_pairwise descLe descLe_total descLe_trans entries
  simp only [identityFieldPairs, List.mem_cons, List.not_mem_nil, or_false] at hf
  rcases hf with hh | hh | hh | hh <;>
    (injection hh with hfe hfm; subst hfe; subst hfm)
  · have hp1 : ∀ (entries : List Entry) (v : Str),
        first_non_null (stableSort descLe entries).reverse (fun e => e.employer_name) =
          some v →
        (mergeGroup p entries).employer_name = some v := by
      intro entries v hv
      rw [mergeGroup_employer_def, hv]
    exact ⟨hp1, hpart2, fun e0 e1 v hlt h0 _ =>
      two_entry_oldest_wins p _ _ hp1 e0 e1 v hlt h0⟩
  · have hp1 : ∀ (entries : List Entry) (v : Str),
        first_non_null (stableSort descLe entries).reverse (fun e => e.contact_person) =
          some v →
        (mergeGroup p entries).contact_person = some v := by
      intro entries v hv
      rw [mergeGroup_contact_def, hv]
    exact ⟨hp1, hpart2, fun e0 e1 v hlt h0 _ =>
      two_entry_oldest_wins p _ _ hp1 e0 e1 v hlt h0⟩
  · have hp1 : ∀ (entries : List Entry) (v : Str),
        first_non_null (stableSort descLe entries).reverse (fun e => e.applied_position) =
          some v →
        (mergeGroup p entries).applied_position = some v := by
      intro entries v hv
      rw [mergeGroup_position_def, hv]
    exact ⟨hp1, hpart2, fun e0 e1 v hlt h0 _ =>
      two_entry_oldest_wins p _ _ hp1 e0 e1 v hlt h0⟩
  · have hp1 : ∀ (entries : List Entry) (v : Str),
        first_non_null (stableSort descLe entries).reverse (fun e => e.postal_address) =
          some v →
        (mergeGroup p entries).postal_address = some v := by
      intro entries v hv
      rw [mergeGroup_address_def, hv]
    exact ⟨hp1, hpart2, fun e0 e1 v hlt h0 _ =>
      two_entry_oldest_wins p _ _ hp1 e0 e1 v hlt h0⟩

/-- Witness for the amended C2, instantiated at the applied-position field. -/
theorem c2_amended_oldest_wins_witness :
    (∀ (entries : List Entry) (v : Str),
      first_non_null (stableSort descLe entries).reverse (fun e => e.applied_position) =
        some v →
      (mergeGroup (fun _ => none) entries).applied_position = some v) ∧
    (∀ entries : List Entry, ((stableSort descLe entries).reverse.Pairwise (fun a b =>
      dtLe (sort_key_received_datetime a) (sort_key_received_datetime b) = true))) ∧
    (∀ (e0 e1 : Entry) (v : Str),
      dtLe (sort_key_received_datetime e1) (sort_key_received_datetime e0) = false →
      clean_str (e0.applied_position) = some v → clean_str (e1.applied_position) = none →
      (mergeGroup (fun _ => none) [e0, e1]).applied_position = some v ∧
        (mergeGroup (fun _ => none) [e1, e0]).applied_position = some v) :=
  c2_amended_oldest_wins (fun _ => none)
    (fun e => e.applied_position) (fun r => r.applied_position)
    (List.mem_cons_of_mem _ (List.mem_cons_of_mem _ (List.mem_cons_self _ _)))

end ApplyTrack
